import Mathlib

/-!
Shallow embedding of the model-selection and recognition core of the
sign_language_recognizer repository: src/my_model_selectors.py and
src/my_recognizer.py.  The external HMM engine (hmmlearn GaussianHMM) is
a black box; training and scoring enter as oracles stored in the
environment record, with `none` standing for a raised exception that the
surrounding Python code catches.  Log-likelihood values are modelled as
rationals, and the value of np.log(len(self.X)) computed on line 88 of
my_model_selectors.py enters the environment as the field logN.
-/

/-- Fixed configuration handed to the GaussianHMM constructor in
ModelSelector.base_model (my_model_selectors.py line 39): covariance
type, iteration cap and random seed. -/
structure HMMConfig where
  covariance_type : String
  n_iter : Nat
  random_state : Nat
deriving DecidableEq

/-- A trained GaussianHMM as the selectors observe it: the state count it
was constructed with, the feature dimension fixed by the fitted data,
and the construction configuration. -/
structure HMMModel where
  numStates : Nat
  n_features : Nat
  config : HMMConfig
deriving DecidableEq

/-- Environment of a ModelSelector instance (my_model_selectors.py lines
16 to 29) together with black-box oracles for the hmmlearn calls.
hwords lists the all_word_Xlengths items in dict iteration order, each
word paired with an opaque key naming its Xlengths data.  numSeqs is
len(self.sequences), lenX is len(self.X).  fitFull n tells whether
GaussianHMM(n).fit on the full (X, lengths) of this word succeeds;
scoreSelf n is model(n).score on that same full data; scoreOn n k is
model(n).score on the data keyed k; cvFoldScore n tr te is the value of
fitting at n states on the combined train split tr and scoring the
combined test split te, none when either call raised. -/
structure SelEnv where
  hwords : List (String × Nat)
  this_word : String
  numSeqs : Nat
  lenX : Nat
  logN : ℚ
  numFeatures : Nat
  n_constant : Nat
  min_n_components : Nat
  max_n_components : Nat
  random_state : Nat
  fitFull : Nat → Bool
  scoreSelf : Nat → Option ℚ
  scoreOn : Nat → Nat → Option ℚ
  cvFoldScore : Nat → List Nat → List Nat → Option ℚ

/-- ModelSelector.base_model (lines 34 to 47): construct a GaussianHMM
with diagonal covariance, 1000 iterations and the stored seed, fit it on
the full data of the word; any exception is caught and None is
returned. -/
def SelEnv.base_model (env : SelEnv) (num_states : Nat) : Option HMMModel :=
  if env.fitFull num_states then
    some { numStates := num_states, n_features := env.numFeatures,
           config := { covariance_type := "diag", n_iter := 1000,
                       random_state := env.random_state } }
  else none

/-- The candidate state counts range(min_n_components,
max_n_components + 1) iterated by the three searching selectors. -/
def SelEnv.components (env : SelEnv) : List Nat :=
  List.range' env.min_n_components (env.max_n_components + 1 - env.min_n_components)

/-- One step of the keep-the-best loop shared by the searching selectors:
when candidate n produced a value, the current best is replaced exactly
when cmp new old holds (strict improvement), otherwise the current best
is kept; a candidate that produced nothing is skipped by the except
clause. -/
def pickStep {β : Type} (cmp : ℚ → ℚ → Bool) (f : Nat → Option (β × ℚ))
    (best : Option (β × ℚ)) (n : Nat) : Option (β × ℚ) :=
  match f n with
  | none => best
  | some p =>
    match best with
    | none => some p
    | some q => if cmp p.2 q.2 then some p else some q

/-- The keep-the-best loop over a candidate list, starting from the
sentinel initial best (float inf or float -inf in the source, which the
first successful candidate always replaces). -/
def pickBest {β : Type} (cmp : ℚ → ℚ → Bool) (f : Nat → Option (β × ℚ))
    (l : List Nat) : Option (β × ℚ) :=
  l.foldl (pickStep cmp f) none

/-- Strict less-than on rationals as a Bool, the BIC comparison of
line 90. -/
def ltQ (a b : ℚ) : Bool := decide (a < b)

/-- Strict greater-than on rationals as a Bool, the DIC and CV
comparisons of lines 120 and 154. -/
def gtQ (a b : ℚ) : Bool := decide (b < a)

/-- Parameter count of line 87:
p = num_states ** 2 + 2 * num_states * n_features - 1. -/
def bicP (num_states n_features : Nat) : ℤ :=
  (num_states : ℤ) ^ 2 + 2 * (num_states : ℤ) * (n_features : ℤ) - 1

/-- BIC value of one candidate (lines 83 to 89): train through
base_model, score on the own training data, then
BIC = -2 * logL + p * logN.  none when training returned None (the score
call on None raises AttributeError and the except clause skips the
candidate) or when scoring raised. -/
def SelEnv.bicScore (env : SelEnv) (num_states : Nat) : Option ℚ :=
  match env.base_model num_states with
  | none => none
  | some m =>
    match env.scoreSelf num_states with
    | none => none
    | some logL => some (-2 * logL + (bicP num_states m.n_features : ℚ) * env.logN)

/-- Model-and-value pair of one successful BIC candidate. -/
def SelEnv.bicCand (env : SelEnv) (num_states : Nat) : Option (HMMModel × ℚ) :=
  match env.base_model num_states, env.bicScore num_states with
  | some m, some b => some (m, b)
  | _, _ => none

/-- SelectorBIC.select (lines 71 to 96): keep the minimum-BIC candidate
over range(min_n_components, max_n_components + 1), strict
improvement. -/
def SelEnv.selectBIC (env : SelEnv) : Option HMMModel :=
  (pickBest ltQ env.bicCand env.components).map Prod.fst

/-- The words other than this_word, in hwords iteration order
(line 118). -/
def SelEnv.antiWords (env : SelEnv) : List (String × Nat) :=
  env.hwords.filter (fun p => p.1 ≠ env.this_word)

/-- Anti log-likelihood vector of lines 117 and 118: the model of the
target word scored on the Xlengths of every other word, all-or-nothing
because a raise inside the list comprehension aborts the whole
candidate. -/
def SelEnv.antiVec (env : SelEnv) (num_states : Nat) : Option (List ℚ) :=
  env.antiWords.mapM (fun p => env.scoreOn num_states p.2)

/-- DIC value of one candidate (lines 113 to 119):
DIC = logL - mean(anti vector).  When the anti vector is empty, np.mean
yields NaN and the comparison NaN > best on line 120 is always false, so
the candidate can never be kept; this is modelled as none. -/
def SelEnv.dicScore (env : SelEnv) (num_states : Nat) : Option ℚ :=
  match env.base_model num_states, env.scoreSelf num_states, env.antiVec num_states with
  | some _, some logL, some anti =>
    if anti.length = 0 then none
    else some (logL - anti.sum / (anti.length : ℚ))
  | _, _, _ => none

/-- Model-and-value pair of one successful DIC candidate. -/
def SelEnv.dicCand (env : SelEnv) (num_states : Nat) : Option (HMMModel × ℚ) :=
  match env.base_model num_states, env.dicScore num_states with
  | some m, some d => some (m, d)
  | _, _ => none

/-- SelectorDIC.select (lines 107 to 126): keep the maximum-DIC
candidate, strict improvement. -/
def SelEnv.selectDIC (env : SelEnv) : Option HMMModel :=
  (pickBest gtQ env.dicCand env.components).map Prod.fst

/-- SelectorConstant.select (lines 55 to 61): always train at the stored
constant state count. -/
def SelEnv.selectConstant (env : SelEnv) : Option HMMModel :=
  env.base_model env.n_constant

/-- Start offset of fold i in sklearn KFold(n_splits = k) without
shuffling over n samples: the first n mod k folds receive one extra
sample, so fold i starts at i * (n / k) + min i (n mod k). -/
def foldStart (n k i : Nat) : Nat := i * (n / k) + min i (n % k)

/-- Test indices of fold i: one contiguous block. -/
def foldTest (n k i : Nat) : List Nat :=
  List.range' (foldStart n k i) (foldStart n k (i + 1) - foldStart n k i)

/-- Train indices of fold i: every sample index outside the test
block. -/
def foldTrain (n k i : Nat) : List Nat :=
  List.range' 0 (foldStart n k i) ++
    List.range' (foldStart n k (i + 1)) (n - foldStart n k (i + 1))

/-- The ordered (train, test) pairs produced by
KFold(n_splits = k).split on n samples. -/
def kfoldSplits (n k : Nat) : List (List Nat × List Nat) :=
  (List.range k).map (fun i => (foldTrain n k i, foldTest n k i))

/-- Fold count chosen on line 143: 2 when exactly two sequences exist,
else 3. -/
def cvNumSplits (numSeqs : Nat) : Nat := if numSeqs = 2 then 2 else 3

/-- Mean fold log-likelihood at k folds: the loop of lines 144 to 149
followed by np.mean on line 153; a raise inside any fold skips the whole
candidate through the except clause. -/
def SelEnv.kfoldEval (env : SelEnv) (k num_states : Nat) : Option ℚ :=
  match (kfoldSplits env.numSeqs k).mapM
      (fun s => env.cvFoldScore num_states s.1 s.2) with
  | none => none
  | some v => if v.length = 0 then none else some (v.sum / (v.length : ℚ))

/-- Single-sequence fallback of lines 150 to 152: train on the full data
through base_model and score that model against the same full data; the
fold vector then holds exactly that one value, whose mean is the value
itself. -/
def SelEnv.fullDataEval (env : SelEnv) (num_states : Nat) : Option ℚ :=
  match env.base_model num_states with
  | none => none
  | some _ => env.scoreSelf num_states

/-- Candidate value of one num_states in SelectorCV.select (lines 139 to
153): cross-validate when more than one sequence exists, else fall back
to the full-data evaluation. -/
def SelEnv.cvCandScore (env : SelEnv) (num_states : Nat) : Option ℚ :=
  if 1 < env.numSeqs then env.kfoldEval (cvNumSplits env.numSeqs) num_states
  else env.fullDataEval num_states

/-- State-count-and-value pair of one successful CV candidate. -/
def SelEnv.cvCand (env : SelEnv) (num_states : Nat) : Option (Nat × ℚ) :=
  (env.cvCandScore num_states).map (fun a => (num_states, a))

/-- Best num_states by mean CV value (lines 136 to 158), strict
improvement keeps the first maximum. -/
def SelEnv.cvBestN (env : SelEnv) : Option Nat :=
  (pickBest gtQ env.cvCand env.components).map Prod.fst

/-- SelectorCV.select (lines 133 to 160): retrain on the whole data set
at the chosen state count and return that model.  When every candidate
failed, best_num_components is still None and base_model(None) raises
inside GaussianHMM.fit, is caught there, and None is returned; the none
branch models that path. -/
def SelEnv.selectCV (env : SelEnv) : Option HMMModel :=
  match env.cvBestN with
  | none => none
  | some n => env.base_model n

/-- Score-table entry of the recognizer: a finite log-likelihood or the
negative-infinity sentinel recorded on a scoring failure
(my_recognizer.py line 30). -/
inductive Score where
  | neginf : Score
  | val (q : ℚ) : Score
deriving DecidableEq

/-- Strict comparison of score-table values as Python compares the float
values, with the negative-infinity sentinel below every finite value. -/
def Score.lt : Score → Score → Bool
  | _, neginf => false
  | neginf, val _ => true
  | val a, val b => decide (a < b)

/-- Score table of one test item (my_recognizer.py lines 25 to 30): one
entry per bank entry, in bank iteration order, with neginf recorded when
the score call of that model raised. -/
def itemTable {α ι : Type} (models : List (String × α)) (sc : α → ι → Option ℚ)
    (x : ι) : List (String × Score) :=
  models.map (fun p =>
    (p.1, match sc p.2 x with
          | some q => Score.val q
          | none => Score.neginf))

/-- One step of Python max with a key function: the running maximum is
replaced exactly when the key of the new element is strictly greater. -/
def maxStep (best x : String × Score) : String × Score :=
  if Score.lt best.2 x.2 then x else best

/-- Python max(probability_dict.keys(), key = score lookup) of line 33:
none on an empty table, where max raises ValueError, else the first key
attaining the maximum score. -/
def argmaxWord : List (String × Score) → Option String
  | [] => none
  | e :: es => some ((es.foldl maxStep e).1)

/-- recognize (my_recognizer.py lines 5 to 35): per test item in input
order, build the score table and append the arg-max guess; the ValueError
raised by max over an empty bank aborts the whole call, modelled by
none. -/
def recognize {α ι : Type} (models : List (String × α)) (sc : α → ι → Option ℚ) :
    List ι → Option (List (List (String × Score)) × List String)
  | [] => some ([], [])
  | x :: xs =>
    match argmaxWord (itemTable models sc x) with
    | none => none
    | some g =>
      match recognize models sc xs with
      | none => none
      | some r => some (itemTable models sc x :: r.1, g :: r.2)

/-- A skipped candidate leaves the running best unchanged. -/
theorem pickStep_skip {β : Type} (cmp : ℚ → ℚ → Bool) (f : Nat → Option (β × ℚ))
    (best : Option (β × ℚ)) (n : Nat) (hf : f n = none) :
    pickStep cmp f best n = best := by
  simp [pickStep, hf]

/-- A successful candidate replaces an empty running best. -/
theorem pickStep_first {β : Type} (cmp : ℚ → ℚ → Bool) (f : Nat → Option (β × ℚ))
    (n : Nat) (p : β × ℚ) (hf : f n = some p) :
    pickStep cmp f none n = some p := by
  simp [pickStep, hf]

/-- A successful candidate is compared against a present running best. -/
theorem pickStep_cmp {β : Type} (cmp : ℚ → ℚ → Bool) (f : Nat → Option (β × ℚ))
    (n : Nat) (p q : β × ℚ) (hf : f n = some p) :
    pickStep cmp f (some q) n = if cmp p.2 q.2 then some p else some q := by
  simp [pickStep, hf]

/-- A successful candidate never leaves the running best empty. -/
theorem pickStep_isSome {β : Type} (cmp : ℚ → ℚ → Bool) (f : Nat → Option (β × ℚ))
    (best : Option (β × ℚ)) (n : Nat) (p : β × ℚ) (hf : f n = some p) :
    (pickStep cmp f best n).isSome := by
  cases best with
  | none => rw [pickStep_first cmp f n p hf]; rfl
  | some q =>
    rw [pickStep_cmp cmp f n p q hf]
    split <;> rfl

/-- The keep-the-best loop ends empty exactly when it started empty and
every candidate was skipped. -/
theorem pickFold_none {β : Type} (cmp : ℚ → ℚ → Bool) (f : Nat → Option (β × ℚ)) :
    ∀ (l : List Nat) (acc : Option (β × ℚ)),
      l.foldl (pickStep cmp f) acc = none → acc = none ∧ ∀ n ∈ l, f n = none := by
  intro l
  induction l with
  | nil => intro acc h; exact ⟨h, by simp⟩
  | cons n t ih =>
    intro acc h
    rw [List.foldl_cons] at h
    obtain ⟨h1, h2⟩ := ih _ h
    cases hf : f n with
    | some p =>
      have := pickStep_isSome cmp f acc n p hf
      rw [h1] at this
      simp at this
    | none =>
      rw [pickStep_skip cmp f acc n hf] at h1
      refine ⟨h1, ?_⟩
      intro n' hn'
      rcases List.mem_cons.mp hn' with rfl | hn'
      · exact hf
      · exact h2 n' hn'

/-- The final best of the loop is either the initial best or the value of
some candidate in the list. -/
theorem pickFold_mem {β : Type} (cmp : ℚ → ℚ → Bool) (f : Nat → Option (β × ℚ)) :
    ∀ (l : List Nat) (acc : Option (β × ℚ)) (p : β × ℚ),
      l.foldl (pickStep cmp f) acc = some p →
      acc = some p ∨ ∃ n ∈ l, f n = some p := by
  intro l
  induction l with
  | nil => intro acc p h; exact Or.inl h
  | cons n t ih =>
    intro acc p h
    rw [List.foldl_cons] at h
    rcases ih _ _ h with hacc | ⟨n', hn', hf'⟩
    · cases hf : f n with
      | none =>
        rw [pickStep_skip cmp f acc n hf] at hacc
        exact Or.inl hacc
      | some q =>
        cases acc with
        | none =>
          rw [pickStep_first cmp f n q hf] at hacc
          exact Or.inr ⟨n, by simp, by rw [hf, hacc]⟩
        | some a =>
          rw [pickStep_cmp cmp f n q a hf] at hacc
          split at hacc
          · exact Or.inr ⟨n, by simp, by rw [hf, hacc]⟩
          · exact Or.inl hacc
    · exact Or.inr ⟨n', by simp [hn'], hf'⟩

/-- A Bool that is false is not true. -/
theorem bool_ft {b : Bool} (h : b = false) : ¬ b = true := by simp [h]

/-- No candidate in the list, and no initial best, beats the final best
of the loop under the strict comparison. -/
theorem pickFold_opt {β : Type} (cmp : ℚ → ℚ → Bool) (f : Nat → Option (β × ℚ))
    (hirr : ∀ a : ℚ, cmp a a = false)
    (htr : ∀ a b c : ℚ, cmp a b = true → cmp b c = true → cmp a c = true)
    (htot : ∀ a b : ℚ, cmp a b = true ∨ cmp b a = true ∨ a = b) :
    ∀ (l : List Nat) (acc : Option (β × ℚ)) (p : β × ℚ),
      l.foldl (pickStep cmp f) acc = some p →
      (∀ q, acc = some q → cmp q.2 p.2 = false) ∧
      (∀ n ∈ l, ∀ q, f n = some q → cmp q.2 p.2 = false) := by
  intro l
  induction l with
  | nil =>
    intro acc p h
    refine ⟨?_, by simp⟩
    intro q hq
    rw [hq] at h
    cases h
    exact hirr _
  | cons n t ih =>
    intro acc p h
    rw [List.foldl_cons] at h
    obtain ⟨ihacc, iht⟩ := ih (pickStep cmp f acc n) p h
    cases hf : f n with
    | none =>
      rw [pickStep_skip cmp f acc n hf] at ihacc
      refine ⟨ihacc, ?_⟩
      intro n' hn' q hq
      rcases List.mem_cons.mp hn' with heq | hn'
      · subst heq; rw [hf] at hq; cases hq
      · exact iht n' hn' q hq
    | some c =>
      cases acc with
      | none =>
        rw [pickStep_first cmp f n c hf] at ihacc
        have hc := ihacc c rfl
        constructor
        · intro q hq; cases hq
        · intro n' hn' q hq
          rcases List.mem_cons.mp hn' with heq | hn'
          · subst heq; rw [hf] at hq; cases hq; exact hc
          · exact iht n' hn' q hq
      | some a =>
        rw [pickStep_cmp cmp f n c a hf] at ihacc
        by_cases hcc : cmp c.2 a.2 = true
        · rw [if_pos hcc] at ihacc
          have hcp := ihacc c rfl
          constructor
          · intro q hq
            cases hq
            cases hap : cmp a.2 p.2 with
            | false => rfl
            | true => exact absurd (htr c.2 a.2 p.2 hcc hap) (bool_ft hcp)
          · intro n' hn' q hq
            rcases List.mem_cons.mp hn' with heq | hn'
            · subst heq; rw [hf] at hq; cases hq; exact hcp
            · exact iht n' hn' q hq
        · rw [if_neg hcc] at ihacc
          have hap := ihacc a rfl
          constructor
          · intro q hq; cases hq; exact hap
          · intro n' hn' q hq
            rcases List.mem_cons.mp hn' with heq | hn'
            · subst heq
              rw [hf] at hq
              cases hq
              cases hcp : cmp c.2 p.2 with
              | false => rfl
              | true =>
                rcases htot c.2 a.2 with h1 | h1 | h1
                · exact absurd h1 hcc
                · exact absurd (htr a.2 c.2 p.2 h1 hcp) (bool_ft hap)
                · rw [h1] at hcp; exact absurd hcp (bool_ft hap)
            · exact iht n' hn' q hq

/-- The final best of the loop is the first candidate attaining the
optimum: either it is the initial best, or it is a candidate before
which the initial best and every earlier successful candidate were
strictly worse. -/
theorem pickFold_firstwin {β : Type} (cmp : ℚ → ℚ → Bool) (f : Nat → Option (β × ℚ))
    (htr : ∀ a b c : ℚ, cmp a b = true → cmp b c = true → cmp a c = true)
    (htot : ∀ a b : ℚ, cmp a b = true ∨ cmp b a = true ∨ a = b) :
    ∀ (l : List Nat) (acc : Option (β × ℚ)) (p : β × ℚ),
      l.foldl (pickStep cmp f) acc = some p →
      acc = some p ∨
      ∃ l₁ n l₂, l = l₁ ++ n :: l₂ ∧ f n = some p ∧
        (∀ q, acc = some q → cmp p.2 q.2 = true) ∧
        (∀ n' ∈ l₁, ∀ q, f n' = some q → cmp p.2 q.2 = true) := by
  intro l
  induction l with
  | nil => intro acc p h; exact Or.inl h
  | cons n t ih =>
    intro acc p h
    rw [List.foldl_cons] at h
    rcases ih (pickStep cmp f acc n) p h with hacc | ⟨l₁, n₀, l₂, heq, hfn₀, haccw, hearl⟩
    · cases hf : f n with
      | none =>
        rw [pickStep_skip cmp f acc n hf] at hacc
        exact Or.inl hacc
      | some c =>
        cases acc with
        | none =>
          rw [pickStep_first cmp f n c hf] at hacc
          cases hacc
          refine Or.inr ⟨[], n, t, rfl, hf, ?_, by simp⟩
          intro q hq; cases hq
        | some a =>
          rw [pickStep_cmp cmp f n c a hf] at hacc
          by_cases hcc : cmp c.2 a.2 = true
          · rw [if_pos hcc] at hacc
            cases hacc
            refine Or.inr ⟨[], n, t, rfl, hf, ?_, by simp⟩
            intro q hq; cases hq; exact hcc
          · rw [if_neg hcc] at hacc
            exact Or.inl hacc
    · refine Or.inr ⟨n :: l₁, n₀, l₂, by rw [heq, List.cons_append], hfn₀, ?_, ?_⟩
      · cases hf : f n with
        | none =>
          intro q hq
          exact haccw q (by rw [pickStep_skip cmp f acc n hf, hq])
        | some c =>
          cases acc with
          | none => intro q hq; cases hq
          | some a =>
            intro q hq
            cases hq
            rw [pickStep_cmp cmp f n c a hf] at haccw
            by_cases hcc : cmp c.2 a.2 = true
            · rw [if_pos hcc] at haccw
              exact htr p.2 c.2 a.2 (haccw c rfl) hcc
            · rw [if_neg hcc] at haccw
              exact haccw a rfl
      · intro n' hn' q hq
        rcases List.mem_cons.mp hn' with hne | hn'
        · subst hne
          cases acc with
          | none =>
            rw [pickStep_first cmp f n' q hq] at haccw
            exact haccw q rfl
          | some a =>
            rw [pickStep_cmp cmp f n' q a hq] at haccw
            by_cases hcc : cmp q.2 a.2 = true
            · rw [if_pos hcc] at haccw
              exact haccw q rfl
            · rw [if_neg hcc] at haccw
              have hpa := haccw a rfl
              rcases htot q.2 a.2 with h1 | h1 | h1
              · exact absurd h1 hcc
              · exact htr p.2 a.2 q.2 hpa h1
              · rw [← h1] at hpa; exact hpa
        · exact hearl n' hn' q hq

/-- ltQ is irreflexive. -/
theorem ltQ_irrefl (a : ℚ) : ltQ a a = false := by simp [ltQ]

/-- ltQ is transitive. -/
theorem ltQ_trans (a b c : ℚ) (h1 : ltQ a b = true) (h2 : ltQ b c = true) :
    ltQ a c = true := by
  simp only [ltQ, decide_eq_true_eq] at h1 h2 ⊢
  exact lt_trans h1 h2

/-- ltQ satisfies trichotomy. -/
theorem ltQ_tot (a b : ℚ) : ltQ a b = true ∨ ltQ b a = true ∨ a = b := by
  rcases lt_trichotomy a b with h | h | h
  · left; simp [ltQ, h]
  · right; right; exact h
  · right; left; simp [ltQ, h]

/-- Not strictly less means greater or equal. -/
theorem ltQ_false_iff (a b : ℚ) : ltQ a b = false ↔ b ≤ a := by
  simp [ltQ, not_lt]

/-- gtQ is irreflexive. -/
theorem gtQ_irrefl (a : ℚ) : gtQ a a = false := by simp [gtQ]

/-- gtQ is transitive. -/
theorem gtQ_trans (a b c : ℚ) (h1 : gtQ a b = true) (h2 : gtQ b c = true) :
    gtQ a c = true := by
  simp only [gtQ, decide_eq_true_eq] at h1 h2 ⊢
  exact lt_trans h2 h1

/-- gtQ satisfies trichotomy. -/
theorem gtQ_tot (a b : ℚ) : gtQ a b = true ∨ gtQ b a = true ∨ a = b := by
  rcases lt_trichotomy a b with h | h | h
  · right; left; simp [gtQ, h]
  · right; right; exact h
  · left; simp [gtQ, h]

/-- Not strictly greater means less or equal. -/
theorem gtQ_false_iff (a b : ℚ) : gtQ a b = false ↔ a ≤ b := by
  simp [gtQ, not_lt]

/-- Strictly greater as a Bool means strictly greater. -/
theorem gtQ_true_iff (a b : ℚ) : gtQ a b = true ↔ b < a := by
  simp [gtQ]

/-- Strictly less as a Bool means strictly less. -/
theorem ltQ_true_iff (a b : ℚ) : ltQ a b = true ↔ a < b := by
  simp [ltQ]

/-- Membership in the candidate range is exactly the closed interval
from min_n_components to max_n_components. -/
theorem mem_components (env : SelEnv) (n : Nat) :
    n ∈ env.components ↔
      env.min_n_components ≤ n ∧ n ≤ env.max_n_components := by
  unfold SelEnv.components
  rw [List.mem_range'_1]
  omega

/-- A model produced by base_model carries the requested state count, the
feature dimension of the data, and the fixed training configuration. -/
theorem base_model_inv (env : SelEnv) (n : Nat) (m : HMMModel)
    (h : env.base_model n = some m) :
    m.numStates = n ∧ m.n_features = env.numFeatures ∧
      m.config = { covariance_type := "diag", n_iter := 1000,
                   random_state := env.random_state } := by
  unfold SelEnv.base_model at h
  split at h
  · cases h; exact ⟨rfl, rfl, rfl⟩
  · cases h

/-- Inversion of a successful BIC candidate value. -/
theorem bicScore_inv (env : SelEnv) (n : Nat) (b : ℚ)
    (h : env.bicScore n = some b) :
    ∃ m logL, env.base_model n = some m ∧ env.scoreSelf n = some logL ∧
      b = -2 * logL + (bicP n m.n_features : ℚ) * env.logN := by
  unfold SelEnv.bicScore at h
  cases h1 : env.base_model n with
  | none => rw [h1] at h; cases h
  | some m =>
    rw [h1] at h
    cases h2 : env.scoreSelf n with
    | none => rw [h2] at h; cases h
    | some logL =>
      rw [h2] at h
      cases h
      exact ⟨m, logL, rfl, rfl, rfl⟩

/-- Inversion of a successful BIC candidate pair. -/
theorem bicCand_inv (env : SelEnv) (n : Nat) (p : HMMModel × ℚ)
    (h : env.bicCand n = some p) :
    env.base_model n = some p.1 ∧ env.bicScore n = some p.2 := by
  unfold SelEnv.bicCand at h
  cases h1 : env.base_model n with
  | none => rw [h1] at h; cases h
  | some m =>
    rw [h1] at h
    cases h2 : env.bicScore n with
    | none => rw [h2] at h; cases h
    | some b => rw [h2] at h; cases h; exact ⟨rfl, rfl⟩

/-- Introduction of a BIC candidate pair. -/
theorem bicCand_intro (env : SelEnv) (n : Nat) (m : HMMModel) (b : ℚ)
    (h1 : env.base_model n = some m) (h2 : env.bicScore n = some b) :
    env.bicCand n = some (m, b) := by
  unfold SelEnv.bicCand
  rw [h1, h2]

/-- C1: whenever SelectorBIC.select returns a model, the model was
trained at some candidate state count n in the searched range, its BIC
value b satisfies b = -2 logL + p logN with logL the score of the model
on its own training data and p = n ^ 2 + 2 n numFeatures - 1, and b is
less than or equal to the BIC value of every candidate state count in
the range that trained and scored successfully. -/
theorem selectBIC_minimal (env : SelEnv) (m : HMMModel)
    (h : env.selectBIC = some m) :
    ∃ n b logL, n ∈ env.components ∧ env.base_model n = some m ∧
      env.scoreSelf n = some logL ∧
      b = -2 * logL + (bicP n env.numFeatures : ℚ) * env.logN ∧
      env.bicScore n = some b ∧
      ∀ n' ∈ env.components, ∀ b', env.bicScore n' = some b' → b ≤ b' := by
  unfold SelEnv.selectBIC pickBest at h
  rcases Option.map_eq_some'.mp h with ⟨p, hp, hp1⟩
  rcases pickFold_mem ltQ env.bicCand env.components none p hp with hnone | ⟨n, hn, hcand⟩
  · cases hnone
  obtain ⟨hbase, hscore⟩ := bicCand_inv env n p hcand
  obtain ⟨m', logL, hbase', hself, hb⟩ := bicScore_inv env n p.2 hscore
  rw [hbase] at hbase'
  have hm' : p.1 = m' := by cases hbase'; rfl
  obtain ⟨hst, hfeat, hcfg⟩ := base_model_inv env n p.1 hbase
  obtain ⟨_, hopt⟩ :=
    pickFold_opt ltQ env.bicCand ltQ_irrefl ltQ_trans ltQ_tot env.components none p hp
  refine ⟨n, p.2, logL, hn, by rw [← hp1]; exact hbase, hself, ?_, hscore, ?_⟩
  · have hf2 : m'.n_features = env.numFeatures := by rw [← hm']; exact hfeat
    rw [hb, hf2]
  · intro n' hn' b' hb'
    obtain ⟨mb, logLb, hbaseb, hselfb, hbb⟩ := bicScore_inv env n' b' hb'
    have hcandb := bicCand_intro env n' mb b' hbaseb hb'
    have := hopt n' hn' (mb, b') hcandb
    exact (ltQ_false_iff b' p.2).mp this

/-- In the ascending candidate range, everything left of a split point is
strictly smaller. -/
theorem components_split_lt (env : SelEnv) (l₁ l₂ : List Nat) (n : Nat)
    (h : env.components = l₁ ++ n :: l₂) : ∀ n' ∈ l₁, n' < n := by
  have hpw : env.components.Pairwise (· < ·) := List.pairwise_lt_range' _ _
  rw [h] at hpw
  obtain ⟨-, -, hacross⟩ := List.pairwise_append.mp hpw
  intro n' hn'
  exact hacross n' hn' n (List.mem_cons_self n l₂)

/-- In the ascending candidate range, an element strictly below the split
point lies left of the split point. -/
theorem components_split_before (env : SelEnv) (l₁ l₂ : List Nat) (n₀ : Nat)
    (h : env.components = l₁ ++ n₀ :: l₂) :
    ∀ n' ∈ env.components, n' < n₀ → n' ∈ l₁ := by
  have hpw : env.components.Pairwise (· < ·) := List.pairwise_lt_range' _ _
  intro n' hmem hlt
  rw [h] at hmem hpw
  obtain ⟨-, hpw2, -⟩ := List.pairwise_append.mp hpw
  rcases List.mem_append.mp hmem with h1 | h1
  · exact h1
  · rcases List.mem_cons.mp h1 with heq | h2
    · omega
    · have := (List.pairwise_cons.mp hpw2).1 n' h2
      omega

/-- Inversion of a successful DIC candidate value. -/
theorem dicScore_inv (env : SelEnv) (n : Nat) (d : ℚ)
    (h : env.dicScore n = some d) :
    ∃ m logL anti, env.base_model n = some m ∧ env.scoreSelf n = some logL ∧
      env.antiVec n = some anti ∧ anti ≠ [] ∧
      d = logL - anti.sum / (anti.length : ℚ) := by
  unfold SelEnv.dicScore at h
  cases h1 : env.base_model n with
  | none => rw [h1] at h; cases h
  | some m =>
    rw [h1] at h
    cases h2 : env.scoreSelf n with
    | none => rw [h2] at h; cases h
    | some logL =>
      rw [h2] at h
      cases h3 : env.antiVec n with
      | none => rw [h3] at h; cases h
      | some anti =>
        rw [h3] at h
        change (if anti.length = 0 then (none : Option ℚ)
                 else some (logL - anti.sum / (anti.length : ℚ))) = some d at h
        by_cases hlen : anti.length = 0
        · rw [if_pos hlen] at h; cases h
        · rw [if_neg hlen] at h
          cases h
          exact ⟨m, logL, anti, rfl, rfl, rfl,
            by simpa [List.length_eq_zero] using hlen, rfl⟩

/-- Inversion of a successful DIC candidate pair. -/
theorem dicCand_inv (env : SelEnv) (n : Nat) (p : HMMModel × ℚ)
    (h : env.dicCand n = some p) :
    env.base_model n = some p.1 ∧ env.dicScore n = some p.2 := by
  unfold SelEnv.dicCand at h
  cases h1 : env.base_model n with
  | none => rw [h1] at h; cases h
  | some m =>
    rw [h1] at h
    cases h2 : env.dicScore n with
    | none => rw [h2] at h; cases h
    | some d => rw [h2] at h; cases h; exact ⟨rfl, rfl⟩

/-- Introduction of a DIC candidate pair. -/
theorem dicCand_intro (env : SelEnv) (n : Nat) (m : HMMModel) (d : ℚ)
    (h1 : env.base_model n = some m) (h2 : env.dicScore n = some d) :
    env.dicCand n = some (m, d) := by
  unfold SelEnv.dicCand
  rw [h1, h2]

/-- C4: SelectorDIC.select returns the candidate maximising
DIC = logL - mean(antiLogL), where the anti vector holds the scores of
the same model on the Xlengths of every other word; every successfully
scored candidate has a DIC value at most that of the winner; every
successful candidate with a smaller state count scores strictly below
the winner (ties keep the first, hence lowest, state count); and when at
least one candidate scores successfully a model is returned. -/
theorem selectDIC_maximal (env : SelEnv) :
    (∀ m, env.selectDIC = some m →
      ∃ n d logL anti, n ∈ env.components ∧ env.base_model n = some m ∧
        env.scoreSelf n = some logL ∧ env.antiVec n = some anti ∧ anti ≠ [] ∧
        d = logL - anti.sum / (anti.length : ℚ) ∧
        env.dicScore n = some d ∧
        (∀ n' ∈ env.components, ∀ d', env.dicScore n' = some d' → d' ≤ d) ∧
        (∀ n' ∈ env.components, n' < n → ∀ d', env.dicScore n' = some d' → d' < d)) ∧
    ((∃ n ∈ env.components, ∃ d, env.dicScore n = some d) →
      ∃ m, env.selectDIC = some m) := by
  constructor
  · intro m h
    unfold SelEnv.selectDIC pickBest at h
    rcases Option.map_eq_some'.mp h with ⟨p, hp, hp1⟩
    obtain ⟨-, hopt⟩ :=
      pickFold_opt gtQ env.dicCand gtQ_irrefl gtQ_trans gtQ_tot env.components none p hp
    rcases pickFold_firstwin gtQ env.dicCand gtQ_trans gtQ_tot env.components none p hp with
      hnone | ⟨l₁, n₀, l₂, hsplit, hfn₀, -, hearl⟩
    · cases hnone
    obtain ⟨hbase₀, hscore₀⟩ := dicCand_inv env n₀ p hfn₀
    obtain ⟨m₀, logL₀, anti₀, hb₀, hs₀, ha₀, hne₀, hd₀⟩ := dicScore_inv env n₀ p.2 hscore₀
    refine ⟨n₀, p.2, logL₀, anti₀,
      by rw [hsplit]; exact List.mem_append_right l₁ (List.mem_cons_self n₀ l₂),
      by rw [← hp1]; exact hbase₀,
      hs₀, ha₀, hne₀, hd₀, hscore₀, ?_, ?_⟩
    · intro n' hn' d' hd'
      obtain ⟨mb, logLb, antib, hbb, hsb, hab, hneb, hdb⟩ := dicScore_inv env n' d' hd'
      have hcb := dicCand_intro env n' mb d' hbb hd'
      exact (gtQ_false_iff d' p.2).mp (hopt n' hn' (mb, d') hcb)
    · intro n' hn' hlt d' hd'
      obtain ⟨mb, logLb, antib, hbb, hsb, hab, hneb, hdb⟩ := dicScore_inv env n' d' hd'
      have hcb := dicCand_intro env n' mb d' hbb hd'
      have hmem₁ := components_split_before env l₁ l₂ n₀ hsplit n' hn' hlt
      exact (gtQ_true_iff p.2 d').mp (hearl n' hmem₁ (mb, d') hcb)
  · rintro ⟨n, hn, d, hd⟩
    obtain ⟨mb, logLb, antib, hbb, hsb, hab, hneb, hdb⟩ := dicScore_inv env n d hd
    have hcb := dicCand_intro env n mb d hbb hd
    unfold SelEnv.selectDIC pickBest
    cases hres : (env.components.foldl (pickStep gtQ env.dicCand) none) with
    | none =>
      obtain ⟨-, hall⟩ := pickFold_none gtQ env.dicCand env.components none hres
      rw [hall n hn] at hcb
      cases hcb
    | some p => exact ⟨p.1, by simp [hres]⟩

/-- Inversion of a successful CV candidate pair. -/
theorem cvCand_inv (env : SelEnv) (n : Nat) (p : Nat × ℚ)
    (h : env.cvCand n = some p) :
    p.1 = n ∧ env.cvCandScore n = some p.2 := by
  unfold SelEnv.cvCand at h
  cases h1 : env.cvCandScore n with
  | none => rw [h1] at h; cases h
  | some a => rw [h1] at h; cases h; exact ⟨rfl, rfl⟩

/-- Fold starts are monotone. -/
theorem foldStart_mono (n k i : Nat) : foldStart n k i ≤ foldStart n k (i + 1) := by
  unfold foldStart
  have h1 : i * (n / k) ≤ (i + 1) * (n / k) := Nat.mul_le_mul_right _ (Nat.le_succ i)
  omega

/-- A fold start within the fold range stays within the sample count. -/
theorem foldStart_le_n (n k i : Nat) (h : i ≤ k) : foldStart n k i ≤ n := by
  unfold foldStart
  have h1 : i * (n / k) ≤ k * (n / k) := Nat.mul_le_mul_right _ h
  have h2 := Nat.div_add_mod n k
  omega

/-- Every KFold split is a partition of the sample indices: test and
train sizes add up to the sample count and each index below the sample
count lies in exactly one of the two sides. -/
theorem kfold_partition (n k : Nat) :
    ∀ s ∈ kfoldSplits n k, (s.2.length + s.1.length = n) ∧
      ∀ j < n, (j ∈ s.2 ↔ ¬ j ∈ s.1) := by
  intro s hs
  unfold kfoldSplits at hs
  rcases List.mem_map.mp hs with ⟨i, hi, heq⟩
  have hik : i < k := List.mem_range.mp hi
  subst heq
  have hm1 : foldStart n k i ≤ foldStart n k (i + 1) := foldStart_mono n k i
  have hm2 : foldStart n k (i + 1) ≤ n := foldStart_le_n n k (i + 1) hik
  constructor
  · simp only [foldTest, foldTrain, List.length_range', List.length_append]
    omega
  · intro j hj
    simp only [foldTest, foldTrain, List.mem_append, List.mem_range'_1]
    omega

/-- C5: for every candidate state count, when the word has more than one
training sequence the candidate is evaluated by k-fold cross-validation
over the sequence indices with k = 2 for exactly two sequences and k = 3
otherwise, the fold count never exceeds the number of sequences, exactly
k (train, test) splits are produced and each one partitions the sequence
indices; when the word has exactly one training sequence the candidate
is instead evaluated by scoring the full-data model against the full
data itself, with no fold split attempted. -/
theorem selectCV_fold_policy (env : SelEnv) (num_states : Nat) :
    (1 < env.numSeqs →
      env.cvCandScore num_states =
        env.kfoldEval (cvNumSplits env.numSeqs) num_states ∧
      cvNumSplits env.numSeqs ≤ env.numSeqs ∧
      (env.numSeqs = 2 → cvNumSplits env.numSeqs = 2) ∧
      (env.numSeqs ≠ 2 → cvNumSplits env.numSeqs = 3) ∧
      (kfoldSplits env.numSeqs (cvNumSplits env.numSeqs)).length =
        cvNumSplits env.numSeqs ∧
      (∀ s ∈ kfoldSplits env.numSeqs (cvNumSplits env.numSeqs),
        (s.2.length + s.1.length = env.numSeqs) ∧
        ∀ j < env.numSeqs, (j ∈ s.2 ↔ ¬ j ∈ s.1))) ∧
    (env.numSeqs = 1 →
      env.cvCandScore num_states = env.fullDataEval num_states ∧
      (env.base_model num_states = none → env.cvCandScore num_states = none) ∧
      (∀ m, env.base_model num_states = some m →
        env.cvCandScore num_states = env.scoreSelf num_states)) := by
  constructor
  · intro h1lt
    refine ⟨?_, ?_, ?_, ?_, ?_, kfold_partition _ _⟩
    · unfold SelEnv.cvCandScore
      rw [if_pos h1lt]
    · unfold cvNumSplits
      by_cases h2 : env.numSeqs = 2
      · simp [h2]
      · rw [if_neg h2]; omega
    · intro h2; simp [cvNumSplits, h2]
    · intro h2; simp [cvNumSplits, h2]
    · simp [kfoldSplits]
  · intro h1
    have hnot : ¬ 1 < env.numSeqs := by omega
    have hfull : env.cvCandScore num_states = env.fullDataEval num_states := by
      unfold SelEnv.cvCandScore
      rw [if_neg hnot]
    refine ⟨hfull, ?_, ?_⟩
    · intro hb
      rw [hfull]
      unfold SelEnv.fullDataEval
      rw [hb]
    · intro m hm
      rw [hfull]
      unfold SelEnv.fullDataEval
      rw [hm]

/-- C6: when every candidate state count fails, SelectorCV.select returns
no model; and whenever it returns a model, that model was trained by
base_model on the entire data set at a state count whose mean fold
log-likelihood is at least that of every other successful candidate. -/
theorem selectCV_final_training (env : SelEnv) :
    ((∀ n ∈ env.components, env.cvCandScore n = none) → env.selectCV = none) ∧
    (∀ m, env.selectCV = some m →
      ∃ n b, n ∈ env.components ∧ env.base_model n = some m ∧ m.numStates = n ∧
        env.cvCandScore n = some b ∧
        ∀ n' ∈ env.components, ∀ b', env.cvCandScore n' = some b' → b' ≤ b) := by
  constructor
  · intro hall
    unfold SelEnv.selectCV
    cases hb : env.cvBestN with
    | none => rfl
    | some n =>
      exfalso
      unfold SelEnv.cvBestN pickBest at hb
      rcases Option.map_eq_some'.mp hb with ⟨p, hp, -⟩
      rcases pickFold_mem gtQ env.cvCand env.components none p hp with hc | ⟨n₁, hn₁, hcand⟩
      · cases hc
      obtain ⟨-, hscore⟩ := cvCand_inv env n₁ p hcand
      rw [hall n₁ hn₁] at hscore
      cases hscore
  · intro m h
    unfold SelEnv.selectCV at h
    cases hb : env.cvBestN with
    | none => rw [hb] at h; cases h
    | some n =>
      rw [hb] at h
      unfold SelEnv.cvBestN pickBest at hb
      rcases Option.map_eq_some'.mp hb with ⟨p, hp, hp1⟩
      rcases pickFold_mem gtQ env.cvCand env.components none p hp with hc | ⟨n₁, hn₁, hcand⟩
      · cases hc
      obtain ⟨hfst, hscore⟩ := cvCand_inv env n₁ p hcand
      have hn1n : n₁ = n := by rw [← hfst, hp1]
      obtain ⟨-, hopt⟩ :=
        pickFold_opt gtQ env.cvCand gtQ_irrefl gtQ_trans gtQ_tot env.components none p hp
      obtain ⟨hst, -, -⟩ := base_model_inv env n m h
      refine ⟨n, p.2, hn1n ▸ hn₁, h, hst, hn1n ▸ hscore, ?_⟩
      intro n' hn' b' hb'
      have hcb : env.cvCand n' = some (n', b') := by
        unfold SelEnv.cvCand
        rw [hb']
        rfl
      exact (gtQ_false_iff b' p.2).mp (hopt n' hn' (n', b') hcb)

/-- A model returned by SelectorBIC comes from base_model at a candidate
of the searched range. -/
theorem selectBIC_provenance (env : SelEnv) (m : HMMModel)
    (h : env.selectBIC = some m) :
    ∃ n ∈ env.components, env.base_model n = some m := by
  unfold SelEnv.selectBIC pickBest at h
  rcases Option.map_eq_some'.mp h with ⟨p, hp, hp1⟩
  rcases pickFold_mem ltQ env.bicCand env.components none p hp with hc | ⟨n, hn, hcand⟩
  · cases hc
  obtain ⟨hbase, -⟩ := bicCand_inv env n p hcand
  exact ⟨n, hn, by rw [← hp1]; exact hbase⟩

/-- A model returned by SelectorDIC comes from base_model at a candidate
of the searched range. -/
theorem selectDIC_provenance (env : SelEnv) (m : HMMModel)
    (h : env.selectDIC = some m) :
    ∃ n ∈ env.components, env.base_model n = some m := by
  unfold SelEnv.selectDIC pickBest at h
  rcases Option.map_eq_some'.mp h with ⟨p, hp, hp1⟩
  rcases pickFold_mem gtQ env.dicCand env.components none p hp with hc | ⟨n, hn, hcand⟩
  · cases hc
  obtain ⟨hbase, -⟩ := dicCand_inv env n p hcand
  exact ⟨n, hn, by rw [← hp1]; exact hbase⟩

/-- A model returned by SelectorCV comes from base_model at a candidate
of the searched range. -/
theorem selectCV_provenance (env : SelEnv) (m : HMMModel)
    (h : env.selectCV = some m) :
    ∃ n ∈ env.components, env.base_model n = some m := by
  unfold SelEnv.selectCV at h
  cases hb : env.cvBestN with
  | none => rw [hb] at h; cases h
  | some n =>
    rw [hb] at h
    unfold SelEnv.cvBestN pickBest at hb
    rcases Option.map_eq_some'.mp hb with ⟨p, hp, hp1⟩
    rcases pickFold_mem gtQ env.cvCand env.components none p hp with hc | ⟨n₁, hn₁, hcand⟩
    · cases hc
    obtain ⟨hfst, -⟩ := cvCand_inv env n₁ p hcand
    have hn1n : n₁ = n := by rw [← hfst, hp1]
    exact ⟨n, hn1n ▸ hn₁, h⟩

/-- Concrete environment for the range counterexample: the caller kept
the default n_constant = 3 but configured the search range [5, 10], and
training always succeeds. -/
def envConstCex : SelEnv :=
  { hwords := [("BOOK", 0)], this_word := "BOOK", numSeqs := 2, lenX := 9,
    logN := 2, numFeatures := 1, n_constant := 3,
    min_n_components := 5, max_n_components := 10, random_state := 14,
    fitFull := fun _ => true, scoreSelf := fun _ => some (-1),
    scoreOn := fun _ _ => some (-2), cvFoldScore := fun _ _ _ => some (-3) }

/-- C3 counterexample: SelectorConstant returns a model whose state count
3 lies outside the configured range [5, 10]; nothing ties n_constant to
the bounds min_n_components and max_n_components, so the claim that
every strategy returns a state count inside the closed range fails. -/
theorem selectConstant_outside_range :
    SelEnv.selectConstant envConstCex =
      some { numStates := 3, n_features := 1,
             config := { covariance_type := "diag", n_iter := 1000,
                         random_state := 14 } } ∧
    envConstCex.min_n_components = 5 ∧
    envConstCex.max_n_components = 10 ∧
    ¬ (envConstCex.min_n_components ≤ 3 ∧ 3 ≤ envConstCex.max_n_components) :=
  ⟨rfl, rfl, rfl, by decide⟩

/-- C3 amended: a model returned by the BIC, DIC or CV strategy has its
state count inside the closed range from min_n_components to
max_n_components; SelectorConstant instead always returns the
caller-configured constant state count, which lies inside the range only
when the caller chose it so. -/
theorem returned_states_characterization (env : SelEnv) (m : HMMModel) :
    (env.selectBIC = some m →
      env.min_n_components ≤ m.numStates ∧ m.numStates ≤ env.max_n_components) ∧
    (env.selectDIC = some m →
      env.min_n_components ≤ m.numStates ∧ m.numStates ≤ env.max_n_components) ∧
    (env.selectCV = some m →
      env.min_n_components ≤ m.numStates ∧ m.numStates ≤ env.max_n_components) ∧
    (env.selectConstant = some m → m.numStates = env.n_constant) := by
  refine ⟨?_, ?_, ?_, ?_⟩
  · intro h
    obtain ⟨n, hn, hbase⟩ := selectBIC_provenance env m h
    obtain ⟨hst, -, -⟩ := base_model_inv env n m hbase
    rw [hst]
    exact (mem_components env n).mp hn
  · intro h
    obtain ⟨n, hn, hbase⟩ := selectDIC_provenance env m h
    obtain ⟨hst, -, -⟩ := base_model_inv env n m hbase
    rw [hst]
    exact (mem_components env n).mp hn
  · intro h
    obtain ⟨n, hn, hbase⟩ := selectCV_provenance env m h
    obtain ⟨hst, -, -⟩ := base_model_inv env n m hbase
    rw [hst]
    exact (mem_components env n).mp hn
  · intro h
    unfold SelEnv.selectConstant at h
    obtain ⟨hst, -, -⟩ := base_model_inv env env.n_constant m h
    exact hst

/-- C8: the Model Trainer either returns a model carrying the requested
state count together with the fixed configuration (diagonal covariance,
1000 iteration cap, the caller-supplied seed), or returns the failure
value; the embedding is a total function, the Python try block having
converted every fit exception into the None return. -/
theorem base_model_total (env : SelEnv) (num_states : Nat) :
    (∃ m, env.base_model num_states = some m ∧ m.numStates = num_states ∧
      m.config.covariance_type = "diag" ∧ m.config.n_iter = 1000 ∧
      m.config.random_state = env.random_state) ∨
    env.base_model num_states = none := by
  unfold SelEnv.base_model
  by_cases hf : env.fitFull num_states = true
  · left
    rw [if_pos hf]
    exact ⟨_, rfl, rfl, rfl, rfl, rfl⟩
  · right
    rw [if_neg hf]

/-- Score.lt is irreflexive. -/
theorem score_lt_irrefl (a : Score) : Score.lt a a = false := by
  cases a <;> simp [Score.lt]

/-- Score.lt is transitive. -/
theorem score_lt_trans (a b c : Score) (h1 : Score.lt a b = true)
    (h2 : Score.lt b c = true) : Score.lt a c = true := by
  cases a <;> cases b <;> cases c <;> simp_all [Score.lt]
  exact lt_trans h1 h2

/-- Score.lt is asymmetric. -/
theorem score_lt_asymm (a b : Score) (h : Score.lt a b = true) :
    Score.lt b a = false := by
  cases a with
  | neginf =>
    cases b with
    | neginf => simp [Score.lt]
    | val qb => simp [Score.lt]
  | val qa =>
    cases b with
    | neginf => simp [Score.lt] at h
    | val qb =>
      simp only [Score.lt, decide_eq_true_eq] at h
      simp only [Score.lt, decide_eq_false_iff_not]
      exact not_lt.mpr h.le

/-- Score.lt satisfies trichotomy. -/
theorem score_lt_tot (a b : Score) :
    Score.lt a b = true ∨ Score.lt b a = true ∨ a = b := by
  cases a with
  | neginf =>
    cases b with
    | neginf => right; right; rfl
    | val qb => left; simp [Score.lt]
  | val qa =>
    cases b with
    | neginf => right; left; simp [Score.lt]
    | val qb =>
      rcases lt_trichotomy qa qb with h | h | h
      · left; simp [Score.lt, h]
      · right; right; rw [h]
      · right; left; simp [Score.lt, h]

/-- maxStep keeps the challenger when it is strictly greater. -/
theorem maxStep_pos (e x : String × Score) (h : Score.lt e.2 x.2 = true) :
    maxStep e x = x := by
  simp [maxStep, h]

/-- maxStep keeps the running maximum otherwise. -/
theorem maxStep_neg (e x : String × Score) (h : Score.lt e.2 x.2 = false) :
    maxStep e x = e := by
  simp [maxStep, h]

/-- The left fold of maxStep, started at e, returns an element of
e :: es whose score no element of e :: es exceeds, while every element
strictly left of it in e :: es scores strictly below it: Python max
keeps the first maximal element. -/
theorem maxFold_first (es : List (String × Score)) :
    ∀ e : String × Score,
      ∃ l₁ l₂, e :: es = l₁ ++ (es.foldl maxStep e) :: l₂ ∧
        (∀ x ∈ e :: es, Score.lt (es.foldl maxStep e).2 x.2 = false) ∧
        (∀ x ∈ l₁, Score.lt x.2 (es.foldl maxStep e).2 = true) := by
  induction es with
  | nil =>
    intro e
    refine ⟨[], [], rfl, ?_, by simp⟩
    intro y hy
    rcases List.mem_cons.mp hy with heq | hy
    · subst heq
      exact score_lt_irrefl _
    · cases hy
  | cons x es ih =>
    intro e
    rw [List.foldl_cons]
    cases hc : Score.lt e.2 x.2 with
    | true =>
      rw [maxStep_pos e x hc]
      obtain ⟨l₁, l₂, hsplit, hmax, hfirst⟩ := ih x
      have hxr : Score.lt (es.foldl maxStep x).2 x.2 = false :=
        hmax x (List.mem_cons_self x es)
      have her : Score.lt e.2 (es.foldl maxStep x).2 = true := by
        rcases score_lt_tot x.2 (es.foldl maxStep x).2 with h1 | h1 | h1
        · exact score_lt_trans _ _ _ hc h1
        · rw [h1] at hxr; cases hxr
        · rw [← h1]; exact hc
      refine ⟨e :: l₁, l₂, ?_, ?_, ?_⟩
      · rw [List.cons_append, ← hsplit]
      · intro y hy
        rcases List.mem_cons.mp hy with heq | hy
        · subst heq
          exact score_lt_asymm _ _ her
        · exact hmax y hy
      · intro y hy
        rcases List.mem_cons.mp hy with heq | hy
        · subst heq
          exact her
        · exact hfirst y hy
    | false =>
      rw [maxStep_neg e x hc]
      obtain ⟨l₁, l₂, hsplit, hmax, hfirst⟩ := ih e
      cases l₁ with
      | nil =>
        simp only [List.nil_append] at hsplit
        injection hsplit with he hl
        refine ⟨[], x :: l₂, ?_, ?_, by simp⟩
        · rw [List.nil_append, ← he, ← hl]
        · intro y hy
          rcases List.mem_cons.mp hy with heq | hy2
          · rw [heq]
            exact hmax e (List.mem_cons_self e es)
          · rcases List.mem_cons.mp hy2 with heq | hy3
            · rw [heq, ← he]
              exact hc
            · exact hmax y (List.mem_cons_of_mem e hy3)
      | cons e₀ t =>
        rw [List.cons_append] at hsplit
        injection hsplit with he hl
        subst he
        have hef : Score.lt e.2 (es.foldl maxStep e).2 = true :=
          hfirst e (List.mem_cons_self e t)
        have hex : Score.lt x.2 (es.foldl maxStep e).2 = true := by
          rcases score_lt_tot x.2 e.2 with h1 | h1 | h1
          · exact score_lt_trans _ _ _ h1 hef
          · rw [h1] at hc; cases hc
          · rw [h1]; exact hef
        refine ⟨e :: x :: t, l₂, ?_, ?_, ?_⟩
        · rw [List.cons_append, List.cons_append, ← hl]
        · intro y hy
          rcases List.mem_cons.mp hy with heq | hy2
          · rw [heq]
            exact hmax e (List.mem_cons_self e es)
          · rcases List.mem_cons.mp hy2 with heq | hy3
            · rw [heq]
              exact score_lt_asymm _ _ hex
            · exact hmax y (List.mem_cons_of_mem e hy3)
        · intro y hy
          rcases List.mem_cons.mp hy with heq | hy2
          · rw [heq]
            exact hef
          · rcases List.mem_cons.mp hy2 with heq | hy3
            · rw [heq]
              exact hex
            · exact hfirst y (List.mem_cons_of_mem e hy3)

/-- A guess returned by argmaxWord is the first key attaining the
maximum score of the table. -/
theorem argmaxWord_first (tbl : List (String × Score)) (w : String)
    (h : argmaxWord tbl = some w) :
    ∃ l₁ s l₂, tbl = l₁ ++ (w, s) :: l₂ ∧
      (∀ x ∈ tbl, Score.lt s x.2 = false) ∧
      (∀ x ∈ l₁, Score.lt x.2 s = true) := by
  cases tbl with
  | nil => cases h
  | cons e es =>
    unfold argmaxWord at h
    injection h with hw
    obtain ⟨l₁, l₂, hsplit, hmax, hfirst⟩ := maxFold_first es e
    refine ⟨l₁, (es.foldl maxStep e).2, l₂, ?_, hmax, hfirst⟩
    rw [hsplit, ← hw]

/-- The table of a non-empty bank is non-empty. -/
theorem itemTable_ne_nil {α ι : Type} (models : List (String × α))
    (sc : α → ι → Option ℚ) (x : ι) (h : models ≠ []) :
    itemTable models sc x ≠ [] := by
  unfold itemTable
  simpa using h

/-- argmaxWord succeeds on every non-empty table. -/
theorem argmaxWord_ne_nil (tbl : List (String × Score)) (h : tbl ≠ []) :
    ∃ w, argmaxWord tbl = some w := by
  cases tbl with
  | nil => cases h rfl
  | cons e es => exact ⟨_, rfl⟩

/-- With a non-empty bank, recognize succeeds, yields the tables of the
items in input order, one guess per item, and each guess is the
argmaxWord of its own table. -/
theorem recognize_some {α ι : Type} (models : List (String × α))
    (sc : α → ι → Option ℚ) (hm : models ≠ []) :
    ∀ items : List ι,
      ∃ tbls gs, recognize models sc items = some (tbls, gs) ∧
        tbls = items.map (itemTable models sc) ∧
        gs.length = items.length ∧
        ∀ (k : Nat) (hk1 : k < items.length) (hk2 : k < gs.length),
          argmaxWord (itemTable models sc (items.get ⟨k, hk1⟩)) =
            some (gs.get ⟨k, hk2⟩) := by
  intro items
  induction items with
  | nil =>
    exact ⟨[], [], rfl, rfl, rfl, fun k hk1 _ => absurd hk1 (Nat.not_lt_zero k)⟩
  | cons x xs ih =>
    obtain ⟨tbls, gs, hrec, htb, hlen, hguess⟩ := ih
    obtain ⟨g, hg⟩ := argmaxWord_ne_nil _ (itemTable_ne_nil models sc x hm)
    refine ⟨itemTable models sc x :: tbls, g :: gs, ?_, ?_, ?_, ?_⟩
    · simp only [recognize]
      rw [hg, hrec]
    · rw [List.map_cons, htb]
    · simp [hlen]
    · intro k hk1 hk2
      cases k with
      | zero => exact hg
      | succ k =>
        exact hguess k (Nat.lt_of_succ_lt_succ hk1) (Nat.lt_of_succ_lt_succ hk2)

/-- C7: whenever recognize returns, the score tables are exactly the
tables of the test items in the input order with one table per item and
one guess per item, and each guess is the first word of its table
attaining the maximum score of that table (bank iteration order breaks
ties). -/
theorem recognize_ordered {α ι : Type} (models : List (String × α))
    (sc : α → ι → Option ℚ) (items : List ι)
    (tbls : List (List (String × Score))) (gs : List String)
    (h : recognize models sc items = some (tbls, gs)) :
    tbls = items.map (itemTable models sc) ∧
    tbls.length = items.length ∧ gs.length = items.length ∧
    ∀ (k : Nat) (hk1 : k < items.length) (hk2 : k < gs.length),
      ∃ l₁ s l₂,
        itemTable models sc (items.get ⟨k, hk1⟩) =
          l₁ ++ (gs.get ⟨k, hk2⟩, s) :: l₂ ∧
        (∀ x ∈ itemTable models sc (items.get ⟨k, hk1⟩),
          Score.lt s x.2 = false) ∧
        (∀ x ∈ l₁, Score.lt x.2 s = true) := by
  cases hitems : items with
  | nil =>
    subst hitems
    cases h
    exact ⟨rfl, rfl, rfl, fun k hk1 _ => absurd hk1 (Nat.not_lt_zero k)⟩
  | cons x xs =>
    subst hitems
    have hm : models ≠ [] := by
      intro hcon
      subst hcon
      cases h
    obtain ⟨tbls₀, gs₀, hrec, htb, hlen, hguess⟩ := recognize_some models sc hm (x :: xs)
    rw [h] at hrec
    injection hrec with hpair
    injection hpair with htb2 hgs2
    subst htb2
    subst hgs2
    refine ⟨htb, by rw [htb]; simp, hlen, ?_⟩
    intro k hk1 hk2
    exact argmaxWord_first _ _ (hguess k hk1 hk2)

/-- C9: recognize consumes no state beyond its arguments; two score
functions that agree pointwise, applied to the same bank and the same
items, produce identical score tables and identical guesses. -/
theorem recognize_deterministic {α ι : Type} (models : List (String × α))
    (sc₁ sc₂ : α → ι → Option ℚ) (items : List ι)
    (h : ∀ a x, sc₁ a x = sc₂ a x) :
    recognize models sc₁ items = recognize models sc₂ items := by
  have hsc : sc₁ = sc₂ := funext fun a => funext fun x => h a x
  rw [hsc]

/-- C10: with a non-empty bank, recognize never fails, returns one table
and one guess per item, and every table carries exactly one entry per
bank entry with the bank words as keys; with an empty bank and a
non-empty item list, the arg-max over the empty score table fails and
recognize returns nothing instead of empty guesses. -/
theorem recognize_totality {α ι : Type} (models : List (String × α))
    (sc : α → ι → Option ℚ) (items : List ι) :
    (models ≠ [] →
      ∃ tbls gs, recognize models sc items = some (tbls, gs) ∧
        tbls.length = items.length ∧ gs.length = items.length ∧
        ∀ t ∈ tbls, t.length = models.length ∧
          t.map Prod.fst = models.map Prod.fst) ∧
    (models = [] → items ≠ [] → recognize models sc items = none) := by
  constructor
  · intro hm
    obtain ⟨tbls, gs, hrec, htb, hlen, -⟩ := recognize_some models sc hm items
    refine ⟨tbls, gs, hrec, by rw [htb]; simp, hlen, ?_⟩
    intro t ht
    rw [htb] at ht
    rcases List.mem_map.mp ht with ⟨x, -, heq⟩
    constructor
    · rw [← heq]
      unfold itemTable
      simp
    · rw [← heq]
      unfold itemTable
      rw [List.map_map]
      rfl
  · intro hm hit
    subst hm
    cases items with
    | nil => cases hit rfl
    | cons x xs => rfl

/-- With pairwise distinct keys, an association list determines the value
of each key. -/
theorem nodup_keys_unique {γ : Type} (l : List (String × γ))
    (hn : (l.map Prod.fst).Nodup) (w : String) (a b : γ)
    (ha : (w, a) ∈ l) (hb : (w, b) ∈ l) : a = b := by
  induction l with
  | nil => cases ha
  | cons e t ih =>
    rw [List.map_cons] at hn
    obtain ⟨hhead, htail⟩ := List.nodup_cons.mp hn
    rcases List.mem_cons.mp ha with ha1 | ha1 <;> rcases List.mem_cons.mp hb with hb1 | hb1
    · rw [← hb1] at ha1
      simp only [Prod.mk.injEq] at ha1
      exact ha1.2
    · exfalso
      apply hhead
      rw [← ha1]
      exact List.mem_map.mpr ⟨(w, b), hb1, rfl⟩
    · exfalso
      apply hhead
      rw [← hb1]
      exact List.mem_map.mpr ⟨(w, a), ha1, rfl⟩
    · exact ih htail ha1 hb1

/-- A bank entry whose model fails to score the item contributes the
negative-infinity sentinel to the score table. -/
theorem itemTable_mem_fail {α ι : Type} (models : List (String × α))
    (sc : α → ι → Option ℚ) (x : ι) (w : String) (a : α)
    (hmem : (w, a) ∈ models) (hfail : sc a x = none) :
    (w, Score.neginf) ∈ itemTable models sc x := by
  unfold itemTable
  refine List.mem_map.mpr ⟨(w, a), hmem, ?_⟩
  simp [hfail]

/-- A bank entry whose model scores the item contributes that finite
value to the score table. -/
theorem itemTable_mem_succ {α ι : Type} (models : List (String × α))
    (sc : α → ι → Option ℚ) (x : ι) (w : String) (a : α) (q : ℚ)
    (hmem : (w, a) ∈ models) (hq : sc a x = some q) :
    (w, Score.val q) ∈ itemTable models sc x := by
  unfold itemTable
  refine List.mem_map.mpr ⟨(w, a), hmem, ?_⟩
  simp [hq]

/-- Concrete one-model bank whose only model always fails to score. -/
def cexBank : List (String × Unit) := [("ALPHA", ())]

/-- The always-failing score oracle of the counterexample. -/
def cexScore : Unit → Unit → Option ℚ := fun _ _ => none

/-- C2 counterexample: the single model of the bank fails to score the
single test item, the score table records negative infinity for its
word, and the guess nevertheless IS that word, refuting the claim that
the guess of an item is never the word of a model that failed on it. -/
theorem recognize_failed_word_guessed :
    cexScore () () = none ∧
    recognize cexBank cexScore [()] =
      some ([[("ALPHA", Score.neginf)]], ["ALPHA"]) :=
  ⟨rfl, rfl⟩

/-- C2 amended: when model M fails to score item I while at least one
model of the bank scores I successfully (and bank words are pairwise
distinct, as Python dict keys are), the call still succeeds with one
table per item, the table of I holds negative infinity for the word of M
and the finite value of every model that scored I successfully, and the
guess of I is never the word of M. -/
theorem recognize_failure_isolation {α ι : Type} (models : List (String × α))
    (sc : α → ι → Option ℚ) (items : List ι)
    (hnodup : (models.map Prod.fst).Nodup)
    (w : String) (a : α) (hmem : (w, a) ∈ models)
    (k : Nat) (hk : k < items.length)
    (hfail : sc a (items.get ⟨k, hk⟩) = none)
    (w₁ : String) (a₁ : α) (q₁ : ℚ) (hmem₁ : (w₁, a₁) ∈ models)
    (hsucc : sc a₁ (items.get ⟨k, hk⟩) = some q₁) :
    ∃ tbls gs, recognize models sc items = some (tbls, gs) ∧
      tbls.length = items.length ∧ gs.length = items.length ∧
      (∀ hk2 : k < tbls.length,
        (w, Score.neginf) ∈ tbls.get ⟨k, hk2⟩ ∧
        (∀ (w₂ : String) (a₂ : α) (q₂ : ℚ), (w₂, a₂) ∈ models →
          sc a₂ (items.get ⟨k, hk⟩) = some q₂ →
          (w₂, Score.val q₂) ∈ tbls.get ⟨k, hk2⟩)) ∧
      (∀ hk3 : k < gs.length, gs.get ⟨k, hk3⟩ ≠ w) := by
  have hm : models ≠ [] := by
    intro hcon
    rw [hcon] at hmem
    cases hmem
  obtain ⟨tbls, gs, hrec, htb, hlen, hguess⟩ := recognize_some models sc hm items
  have htget : ∀ hk2 : k < tbls.length,
      tbls.get ⟨k, hk2⟩ = itemTable models sc (items.get ⟨k, hk⟩) := by
    intro hk2
    have := List.get_of_eq htb ⟨k, hk2⟩
    rw [this]
    simp [List.getElem_map]
  refine ⟨tbls, gs, hrec, by rw [htb]; simp, hlen, ?_, ?_⟩
  · intro hk2
    rw [htget hk2]
    constructor
    · exact itemTable_mem_fail models sc _ w a hmem hfail
    · intro w₂ a₂ q₂ hmem₂ hq₂
      exact itemTable_mem_succ models sc _ w₂ a₂ q₂ hmem₂ hq₂
  · intro hk3 hcon
    have harg := hguess k hk hk3
    obtain ⟨l₁, s, l₂, hsplit, hmax, -⟩ := argmaxWord_first _ _ harg
    -- the guessed entry sits in the table with the maximal score s
    have hginTbl : (gs.get ⟨k, hk3⟩, s) ∈ itemTable models sc (items.get ⟨k, hk⟩) := by
      rw [hsplit]
      exact List.mem_append_right l₁ (List.mem_cons_self _ l₂)
    -- the successful entry bounds s away from neginf
    have hsuccTbl : (w₁, Score.val q₁) ∈ itemTable models sc (items.get ⟨k, hk⟩) :=
      itemTable_mem_succ models sc _ w₁ a₁ q₁ hmem₁ hsucc
    have hsmax : Score.lt s (Score.val q₁) = false := hmax _ hsuccTbl
    have hsval : s ≠ Score.neginf := by
      intro hcon2
      rw [hcon2] at hsmax
      simp [Score.lt] at hsmax
    -- but the failing word occurs in the table only with neginf
    have hfailTbl : (w, Score.neginf) ∈ itemTable models sc (items.get ⟨k, hk⟩) :=
      itemTable_mem_fail models sc _ w a hmem hfail
    rw [hcon] at hginTbl
    have hkeys : ((itemTable models sc (items.get ⟨k, hk⟩)).map Prod.fst).Nodup := by
      unfold itemTable
      rw [List.map_map]
      exact hnodup
    exact hsval (nodup_keys_unique _ hkeys w s Score.neginf hginTbl hfailTbl)

/-- Sample selector environment: two candidate state counts 2 and 3,
three training sequences, two features, and oracles under which the
2-state candidate wins every criterion. -/
def envSample : SelEnv :=
  { hwords := [("BOOK", 0), ("CHOCOLATE", 1)], this_word := "BOOK",
    numSeqs := 3, lenX := 15, logN := 27 / 10, numFeatures := 2,
    n_constant := 3, min_n_components := 2, max_n_components := 3,
    random_state := 14,
    fitFull := fun _ => true,
    scoreSelf := fun n => if n = 2 then some (-10) else some (-20),
    scoreOn := fun n k => some (-(n : ℚ) - (k : ℚ)),
    cvFoldScore := fun n _ _ => some (-(n : ℚ)) }

/-- The same environment with exactly one training sequence. -/
def envOneSeq : SelEnv := { envSample with numSeqs := 1 }

/-- The same environment with exactly two training sequences. -/
def envTwoSeq : SelEnv := { envSample with numSeqs := 2 }

/-- The same environment with every training and fold call failing. -/
def envAllFail : SelEnv :=
  { envSample with fitFull := fun _ => false,
                   scoreSelf := fun _ => none,
                   cvFoldScore := fun _ _ _ => none }

/-- The model trained at two states in the sample environment. -/
def modelTwo : HMMModel :=
  { numStates := 2, n_features := 2,
    config := { covariance_type := "diag", n_iter := 1000, random_state := 14 } }

/-- The model trained at three states in the sample environment. -/
def modelThree : HMMModel :=
  { numStates := 3, n_features := 2,
    config := { covariance_type := "diag", n_iter := 1000, random_state := 14 } }

unseal Rat.add Rat.mul Rat.inv Rat.sub in
/-- Witness for the BIC minimality theorem at the sample environment. -/
theorem selectBIC_minimal_sample :
    ∃ n b logL, n ∈ envSample.components ∧
      SelEnv.base_model envSample n = some modelTwo ∧
      SelEnv.scoreSelf envSample n = some logL ∧
      b = -2 * logL + (bicP n envSample.numFeatures : ℚ) * envSample.logN ∧
      SelEnv.bicScore envSample n = some b ∧
      ∀ n' ∈ envSample.components, ∀ b',
        SelEnv.bicScore envSample n' = some b' → b ≤ b' :=
  selectBIC_minimal envSample modelTwo (by decide)

unseal Rat.add Rat.mul Rat.inv Rat.sub in
/-- Witness for the DIC maximality theorem at the sample environment. -/
theorem selectDIC_maximal_sample :
    (∃ n d logL anti, n ∈ envSample.components ∧
      SelEnv.base_model envSample n = some modelTwo ∧
      SelEnv.scoreSelf envSample n = some logL ∧
      SelEnv.antiVec envSample n = some anti ∧ anti ≠ [] ∧
      d = logL - anti.sum / (anti.length : ℚ) ∧
      SelEnv.dicScore envSample n = some d ∧
      (∀ n' ∈ envSample.components, ∀ d',
        SelEnv.dicScore envSample n' = some d' → d' ≤ d) ∧
      (∀ n' ∈ envSample.components, n' < n → ∀ d',
        SelEnv.dicScore envSample n' = some d' → d' < d)) ∧
    (∃ m, SelEnv.selectDIC envSample = some m) :=
  ⟨(selectDIC_maximal envSample).1 modelTwo (by decide),
   (selectDIC_maximal envSample).2 ⟨2, by decide, -7, by decide⟩⟩

/-- Witness for the CV fold policy theorem: three sequences use three
folds, two sequences use two folds, one sequence falls back to the
full-data evaluation. -/
theorem selectCV_fold_policy_sample :
    SelEnv.cvCandScore envSample 2 =
      SelEnv.kfoldEval envSample (cvNumSplits envSample.numSeqs) 2 ∧
    cvNumSplits envSample.numSeqs ≤ envSample.numSeqs ∧
    cvNumSplits envTwoSeq.numSeqs = 2 ∧
    SelEnv.cvCandScore envOneSeq 2 = SelEnv.fullDataEval envOneSeq 2 :=
  ⟨((selectCV_fold_policy envSample 2).1 (by decide)).1,
   ((selectCV_fold_policy envSample 2).1 (by decide)).2.1,
   ((selectCV_fold_policy envTwoSeq 2).1 (by decide)).2.2.1 rfl,
   ((selectCV_fold_policy envOneSeq 2).2 rfl).1⟩

unseal Rat.add Rat.mul Rat.inv Rat.sub in
/-- Witness for the CV final-training theorem: the all-failing
environment returns no model, the sample environment returns the
full-data model at the best mean fold value. -/
theorem selectCV_final_training_sample :
    SelEnv.selectCV envAllFail = none ∧
    ∃ n b, n ∈ envSample.components ∧
      SelEnv.base_model envSample n = some modelTwo ∧
      modelTwo.numStates = n ∧ SelEnv.cvCandScore envSample n = some b ∧
      ∀ n' ∈ envSample.components, ∀ b',
        SelEnv.cvCandScore envSample n' = some b' → b' ≤ b :=
  ⟨(selectCV_final_training envAllFail).1 (by decide),
   (selectCV_final_training envSample).2 modelTwo (by decide)⟩

unseal Rat.add Rat.mul Rat.inv Rat.sub in
/-- Witness for the amended state-count theorem: the BIC winner of the
sample environment lies inside the range, and SelectorConstant returns
exactly n_constant states. -/
theorem returned_states_sample :
    (envSample.min_n_components ≤ modelTwo.numStates ∧
      modelTwo.numStates ≤ envSample.max_n_components) ∧
    modelThree.numStates = envSample.n_constant :=
  ⟨(returned_states_characterization envSample modelTwo).1 (by decide),
   (returned_states_characterization envSample modelThree).2.2.2 (by decide)⟩

/-- Sample two-model bank: the GOOD model scores 5, the BAD model always
fails. -/
def bankW : List (String × Bool) := [("GOOD", true), ("BAD", false)]

/-- The sample score oracle of the two-model bank. -/
def scoreW : Bool → Unit → Option ℚ := fun a _ => if a then some 5 else none

/-- Witness for the recognizer ordering theorem at the sample bank. -/
theorem recognize_ordered_sample :
    [[("GOOD", Score.val 5), ("BAD", Score.neginf)]] =
      [()].map (itemTable bankW scoreW) ∧
    ([[("GOOD", Score.val 5), ("BAD", Score.neginf)]] :
      List (List (String × Score))).length = [()].length ∧
    (["GOOD"] : List String).length = [()].length ∧
    ∀ (k : Nat) (hk1 : k < [()].length)
      (hk2 : k < (["GOOD"] : List String).length),
      ∃ l₁ s l₂,
        itemTable bankW scoreW ([()].get ⟨k, hk1⟩) =
          l₁ ++ ((["GOOD"] : List String).get ⟨k, hk2⟩, s) :: l₂ ∧
        (∀ x ∈ itemTable bankW scoreW ([()].get ⟨k, hk1⟩),
          Score.lt s x.2 = false) ∧
        (∀ x ∈ l₁, Score.lt x.2 s = true) :=
  recognize_ordered bankW scoreW [()]
    [[("GOOD", Score.val 5), ("BAD", Score.neginf)]] ["GOOD"] rfl

/-- Witness for the recognizer determinism theorem at the sample bank. -/
theorem recognize_deterministic_sample :
    recognize bankW scoreW [()] = recognize bankW scoreW [()] :=
  recognize_deterministic bankW scoreW scoreW [()] (fun _ _ => rfl)

/-- Witness for the recognizer totality theorem: success on the
non-empty sample bank, failure on the empty bank. -/
theorem recognize_totality_sample :
    (∃ tbls gs, recognize bankW scoreW [()] = some (tbls, gs) ∧
      tbls.length = [()].length ∧ gs.length = [()].length ∧
      ∀ t ∈ tbls, t.length = bankW.length ∧
        t.map Prod.fst = bankW.map Prod.fst) ∧
    recognize ([] : List (String × Bool)) scoreW [()] = none :=
  ⟨(recognize_totality bankW scoreW [()]).1 (by decide),
   (recognize_totality ([] : List (String × Bool)) scoreW [()]).2 rfl (by decide)⟩

/-- Witness for the amended failure-isolation theorem: BAD fails on the
item, GOOD succeeds, and the guess avoids BAD. -/
theorem recognize_failure_isolation_sample :
    ∃ tbls gs, recognize bankW scoreW [()] = some (tbls, gs) ∧
      tbls.length = [()].length ∧ gs.length = [()].length ∧
      (∀ hk2 : 0 < tbls.length,
        ("BAD", Score.neginf) ∈ tbls.get ⟨0, hk2⟩ ∧
        (∀ (w₂ : String) (a₂ : Bool) (q₂ : ℚ), (w₂, a₂) ∈ bankW →
          scoreW a₂ ([()].get ⟨0, by decide⟩) = some q₂ →
          (w₂, Score.val q₂) ∈ tbls.get ⟨0, hk2⟩)) ∧
      (∀ hk3 : 0 < gs.length, gs.get ⟨0, hk3⟩ ≠ "BAD") :=
  recognize_failure_isolation bankW scoreW [()] (by decide) "BAD" false (by decide)
    0 (by decide) rfl "GOOD" true 5 (by decide) rfl
